import Mathlib

/-!
Verification of the Smart-meal recipe preprocessing script
(`smartmeal-app/scripts/preprocess_recipes.py`).

Strings are modelled as lists of Unicode code points (`List Nat`); the
script's regular-expression character classes (`[^a-zA-Z0-9\s]`, `\d`,
`\b`, `\w`) are modelled over the ASCII range, which is the range the
script's own string literals and keyword tables live in.  `str.lower()`
is modelled as the ASCII lowercase map, matching Python on ASCII input.
-/

/-- Code points of a Lean string literal; used to write concrete Python
strings in a readable way. -/
def strCodes (s : String) : List Nat := s.data.map Char.toNat

/-- Python `str.lower()` on a single code point (ASCII range). -/
def pyLower (c : Nat) : Nat := if 65 ≤ c ∧ c ≤ 90 then c + 32 else c

/-- Python `str.upper()` on a single code point (ASCII range). -/
def pyUpper (c : Nat) : Nat := if 97 ≤ c ∧ c ≤ 122 then c - 32 else c

/-- Python regex `\s` / `str.strip()` whitespace (ASCII range):
space, tab, newline, carriage return, vertical tab, form feed. -/
def isPySpace (c : Nat) : Bool :=
  c = 32 || c = 9 || c = 10 || c = 13 || c = 11 || c = 12

/-- The ASCII alphanumeric class `[a-zA-Z0-9]`. -/
def isAsciiAlnum (c : Nat) : Bool :=
  (65 ≤ c && c ≤ 90) || (97 ≤ c && c ≤ 122) || (48 ≤ c && c ≤ 57)

/-- Python regex `\w` (ASCII range): `[a-zA-Z0-9_]`. -/
def isWordChar (c : Nat) : Bool := isAsciiAlnum c || c = 95

/-- Characters KEPT by `re.sub(r'[^a-zA-Z0-9\s]', '', s)`:
the class `[a-zA-Z0-9\s]`. -/
def keepChar (c : Nat) : Bool := isAsciiAlnum c || isPySpace c

/-- Python regex `\d` (ASCII range): `[0-9]`. -/
def isDigitCode (c : Nat) : Bool := 48 ≤ c && c ≤ 57

/-- Python substring test `needle in hay` for strings. -/
def pyIn (needle : List Nat) : List Nat → Bool
  | [] => needle.isEmpty
  | c :: rest => needle.isPrefixOf (c :: rest) || pyIn needle rest

/-- Removal of a maximal trailing run of characters satisfying `p`
(the right half of Python's `str.strip()`). -/
def pyRstrip (p : Nat → Bool) : List Nat → List Nat
  | [] => []
  | c :: rest =>
    match pyRstrip p rest with
    | [] => if p c then [] else [c]
    | d :: t => c :: d :: t

/-- Python `str.strip()`: drop the maximal whitespace runs at both ends
(parametrised by the character test `p`). -/
def pyStrip (p : Nat → Bool) (l : List Nat) : List Nat :=
  List.dropWhile p (pyRstrip p l)

/-- Is this exactly one of the article words removed by
`re.sub(r'\b(a|an|the)\b', '', s)`? -/
def isArticle (r : List Nat) : Bool :=
  r == strCodes "a" || r == strCodes "an" || r == strCodes "the"

/-- Fuelled worker for `subArticles`.  The fuel is the length of the list,
so the recursion is structural and the kernel can evaluate it. -/
def subArticlesFuel : Nat → List Nat → List Nat
  | _, [] => []
  | 0, l => l
  | fuel + 1, c :: rest =>
    if isWordChar c then
      (if isArticle (c :: rest.takeWhile isWordChar) then []
       else c :: rest.takeWhile isWordChar)
        ++ subArticlesFuel fuel (rest.dropWhile isWordChar)
    else
      c :: subArticlesFuel fuel rest

/-- `re.sub(r'\b(a|an|the)\b', '', s)`.  A `\b`-delimited match of
`a|an|the` is exactly a maximal run of `\w`-characters equal to one of the
three article words, so the substitution deletes exactly those maximal
word runs, leaving everything else (including the surrounding
non-word characters) in place. -/
def subArticles (l : List Nat) : List Nat := subArticlesFuel l.length l

/-- `clean_ingredient_name` from the script:
`re.sub(r'[^a-zA-Z0-9\s]', '', ingredient.lower()).strip()`, then
`re.sub(r'\b(a|an|the)\b', '', cleaned).strip()`. -/
def clean_ingredient_name (ingredient : List Nat) : List Nat :=
  pyStrip isPySpace
    (subArticles (pyStrip isPySpace ((ingredient.map pyLower).filter keepChar)))

/-- Fuelled worker for `findallDigitRuns` (structural in the fuel). -/
def findallDigitRunsFuel : Nat → List Nat → List (List Nat)
  | _, [] => []
  | 0, _ => []
  | fuel + 1, c :: rest =>
    if isDigitCode c then
      (c :: rest.takeWhile isDigitCode)
        :: findallDigitRunsFuel fuel (rest.dropWhile isDigitCode)
    else
      findallDigitRunsFuel fuel rest

/-- `re.findall(r'(\d+)', s)`: the maximal runs of decimal digits of `s`,
in order of occurrence. -/
def findallDigitRuns (l : List Nat) : List (List Nat) :=
  findallDigitRunsFuel l.length l

/-- Decimal value of a digit list (big-endian), used for Python `int()`. -/
def valN (l : List Nat) : Nat := l.foldl (fun a d => 10 * a + d) 0

/-- Python `int(digit_string)` for a string of decimal digit characters. -/
def intOfDigits (l : List Nat) : Nat := valN (l.map (fun c => c - 48))

/-- `parse_time` from the script.  `None`/NaN input is `none`; the empty
string is falsy, so both give 0.  Otherwise the first maximal digit run is
taken as minutes and multiplied by 60 when the lowercased source string
contains `hour` or `hr`. -/
def parse_time (time_str : Option (List Nat)) : Nat :=
  match time_str with
  | none => 0
  | some s =>
    if s = [] then 0
    else
      match findallDigitRuns s with
      | [] => 0
      | m :: _ =>
        if pyIn (strCodes "hour") (s.map pyLower)
            || pyIn (strCodes "hr") (s.map pyLower) then
          intOfDigits m * 60
        else intOfDigits m

/-- `determine_difficulty` from the script (Python ints are unbounded,
so the arguments are modelled as `Int`). -/
def determine_difficulty (steps_count total_time : Int) : List Nat :=
  if steps_count ≤ 5 ∧ total_time ≤ 30 then strCodes "Easy"
  else if steps_count ≤ 10 ∧ total_time ≤ 60 then strCodes "Medium"
  else strCodes "Hard"

/-- The search text `" ".join(keywords).lower() + " " + name.lower()`
shared by `determine_meal_type` and `extract_cuisine`. -/
def searchText (keywords : List (List Nat)) (name : List Nat) : List Nat :=
  (List.intercalate [32] keywords).map pyLower ++ [32] ++ name.map pyLower

/-- `determine_meal_type` from the script. -/
def determine_meal_type (keywords : List (List Nat)) (name : List Nat) :
    List Nat :=
  if [strCodes "breakfast", strCodes "pancake", strCodes "waffle",
      strCodes "cereal", strCodes "oatmeal"].any
        (fun w => pyIn w (searchText keywords name)) then
    strCodes "Breakfast"
  else if [strCodes "dinner", strCodes "main", strCodes "entree"].any
        (fun w => pyIn w (searchText keywords name)) then
    strCodes "Dinner"
  else if [strCodes "snack", strCodes "appetizer", strCodes "dessert"].any
        (fun w => pyIn w (searchText keywords name)) then
    strCodes "Snack"
  else strCodes "Lunch"

/-- The `cuisines` dict of `extract_cuisine`, as the ordered list of
(cuisine, keyword list) pairs in Python dict-literal iteration order. -/
def cuisinesTable : List (List Nat × List (List Nat)) :=
  [(strCodes "indian",
    [strCodes "indian", strCodes "curry", strCodes "masala",
     strCodes "tandoori", strCodes "biryani"]),
   (strCodes "chinese",
    [strCodes "chinese", strCodes "szechuan", strCodes "cantonese",
     strCodes "wok"]),
   (strCodes "italian",
    [strCodes "italian", strCodes "pasta", strCodes "pizza",
     strCodes "risotto"]),
   (strCodes "mexican",
    [strCodes "mexican", strCodes "taco", strCodes "burrito",
     strCodes "enchilada", strCodes "salsa"]),
   (strCodes "thai",
    [strCodes "thai", strCodes "pad thai", strCodes "curry thai"])]

/-- The `for cuisine, keywords_list in cuisines.items()` loop of
`extract_cuisine`. -/
def lookupCuisine (text : List Nat) :
    List (List Nat × List (List Nat)) → List Nat
  | [] => strCodes "international"
  | (cuisine, kws) :: rest =>
    if kws.any (fun w => pyIn w text) then cuisine
    else lookupCuisine text rest

/-- `extract_cuisine` from the script. -/
def extract_cuisine (keywords : List (List Nat)) (name : List Nat) :
    List Nat :=
  lookupCuisine (searchText keywords name) cuisinesTable

/-- The meat keyword list of `extract_dietary_tags`. -/
def meatKeywords : List (List Nat) :=
  [strCodes "chicken", strCodes "beef", strCodes "pork", strCodes "lamb",
   strCodes "meat", strCodes "fish", strCodes "seafood"]

/-- The dairy/egg keyword list of `extract_dietary_tags`. -/
def dairyKeywords : List (List Nat) :=
  [strCodes "milk", strCodes "cheese", strCodes "butter", strCodes "cream",
   strCodes "egg"]

/-- `" ".join(ingredients).lower()` -/
def joinedLower (parts : List (List Nat)) : List Nat :=
  (List.intercalate [32] parts).map pyLower

/-- `has_meat` of `extract_dietary_tags`. -/
def has_meat (ingredients : List (List Nat)) : Bool :=
  meatKeywords.any (fun w => pyIn w (joinedLower ingredients))

/-- `has_dairy` of `extract_dietary_tags`. -/
def has_dairy (ingredients : List (List Nat)) : Bool :=
  dairyKeywords.any (fun w => pyIn w (joinedLower ingredients))

/-- The gluten-free trigger of `extract_dietary_tags`. -/
def glutenFreeCond (keywords : List (List Nat)) : Bool :=
  pyIn (strCodes "gluten-free") (joinedLower keywords)
    || pyIn (strCodes "gluten free") (joinedLower keywords)

/-- The keto trigger of `extract_dietary_tags`. -/
def ketoCond (keywords : List (List Nat)) : Bool :=
  pyIn (strCodes "keto") (joinedLower keywords)
    || pyIn (strCodes "low-carb") (joinedLower keywords)
    || pyIn (strCodes "low carb") (joinedLower keywords)

/-- The low-carb trigger of `extract_dietary_tags`. -/
def lowCarbCond (keywords : List (List Nat)) : Bool :=
  pyIn (strCodes "low-carb") (joinedLower keywords)
    || pyIn (strCodes "low carb") (joinedLower keywords)

/-- `extract_dietary_tags` from the script: the `tags` list built by the
successive conditional `tags.append(...)` statements, in program order. -/
def extract_dietary_tags (ingredients keywords : List (List Nat)) :
    List (List Nat) :=
  (if !has_meat ingredients then [strCodes "vegetarian"] else [])
    ++ (if !has_meat ingredients && !has_dairy ingredients then
          [strCodes "vegan"] else [])
    ++ (if glutenFreeCond keywords then [strCodes "gluten-free"] else [])
    ++ (if ketoCond keywords then [strCodes "keto"] else [])
    ++ (if lowCarbCond keywords then [strCodes "low-carb"] else [])

/-- A deterministic view of Python's `random` module: an arbitrary stream
of naturals together with a position.  Quantifying over all streams models
"for every choice of the random source". -/
structure RandGen where
  stream : Nat → Nat
  pos : Nat

/-- Draw one raw value from the source. -/
def RandGen.take (g : RandGen) : Nat × RandGen :=
  (g.stream g.pos, ⟨g.stream, g.pos + 1⟩)

/-- `random.randint(a, b)`: an arbitrary value in `[a, b]` chosen by the
random source. -/
def pyRandint (a b : Nat) (g : RandGen) : Nat × RandGen :=
  ((g.take).1 % (b + 1 - a) + a, (g.take).2)

/-- `random.choice(l)` for a nonempty list: an arbitrary element chosen by
the random source. -/
def pyChoice (l : List (List Nat)) (g : RandGen) : List Nat × RandGen :=
  (l.getD ((g.take).1 % l.length) [], (g.take).2)

/-- `random.sample(population, k)`: `k` distinct positions chosen by the
random source, modelled as repeated removal of a source-chosen element. -/
def pySample : List (List Nat) → Nat → RandGen → List (List Nat) × RandGen
  | _, 0, g => ([], g)
  | [], _ + 1, g => ([], g)
  | p :: ps, k + 1, g =>
    let idx := (g.take).1 % (p :: ps).length
    let rest := pySample ((p :: ps).eraseIdx idx) k (g.take).2
    ((p :: ps).getD idx [] :: rest.1, rest.2)

/-- Fuelled worker computing the base-10 digits of `n` (big-endian,
empty for 0); the fuel makes the `n / 10` recursion structural. -/
def decDigitsFuel : Nat → Nat → List Nat
  | _, 0 => []
  | 0, _ + 1 => []
  | f + 1, n + 1 => decDigitsFuel f ((n + 1) / 10) ++ [(n + 1) % 10]

/-- Base-10 digits of `n`, big-endian (empty for 0). -/
def decDigits (n : Nat) : List Nat := decDigitsFuel n n

/-- Python `str(n)` for `n ≥ 1`, as code points. -/
def natCodes (n : Nat) : List Nat := (decDigits n).map (fun d => 48 + d)

/-- The digits of `n` left-padded with zeros to width 4
(Python format `04d`, which pads to a minimum width of 4). -/
def padDigits (n : Nat) : List Nat :=
  List.replicate (4 - (decDigits n).length) 0 ++ decDigits n

/-- `f"recipe_{n:04d}"` from the script. -/
def recipeId (n : Nat) : List Nat :=
  strCodes "recipe_" ++ (padDigits n).map (fun d => 48 + d)

/-- Python `str.capitalize()`: first character uppercased, the rest
lowercased. -/
def pyCapitalize : List Nat → List Nat
  | [] => []
  | c :: t => pyUpper c :: t.map pyLower

/-- One ingredient entry of the sample-recipe template. -/
structure Ingredient where
  name : List Nat
  quantity : Nat
  unitName : List Nat
  substitutions : List (List Nat)

/-- One instruction entry of the sample-recipe template. -/
structure Instruction where
  step : Nat
  text : List Nat
  timerDuration : Option Nat

/-- The nutrition block of a sample recipe. -/
structure Nutrition where
  calories : Nat
  protein : Nat
  carbs : Nat
  fats : Nat
  fiber : Nat
  sodium : Nat
  sugar : Nat

/-- The output schema assembled by `create_sample_recipes`. -/
structure Recipe where
  id : List Nat
  title : List Nat
  image : List Nat
  description : List Nat
  prepTime : Nat
  cookTime : Nat
  totalTime : Nat
  servings : Nat
  difficulty : List Nat
  mealType : List Nat
  cuisine : List Nat
  ingredients : List Ingredient
  instructions : List Instruction
  nutrition : Nutrition
  dietaryTags : List (List Nat)
  videoId : Option (List Nat)

/-- The `cuisines` enumeration of `create_sample_recipes`. -/
def cuisineChoices : List (List Nat) :=
  [strCodes "indian", strCodes "chinese", strCodes "italian",
   strCodes "mexican", strCodes "thai", strCodes "international"]

/-- The `difficulties` enumeration of `create_sample_recipes`. -/
def difficultyChoices : List (List Nat) :=
  [strCodes "Easy", strCodes "Medium", strCodes "Hard"]

/-- The `meal_types` enumeration of `create_sample_recipes`. -/
def mealTypeChoices : List (List Nat) :=
  [strCodes "Breakfast", strCodes "Lunch", strCodes "Dinner",
   strCodes "Snack"]

/-- The population passed to `random.sample` for `dietaryTags`. -/
def tagChoices : List (List Nat) :=
  [strCodes "vegetarian", strCodes "vegan", strCodes "gluten-free",
   strCodes "keto", strCodes "low-carb"]

/-- The body of the `for i in range(count)` loop of
`create_sample_recipes`: builds the record with 0-based index `i`,
drawing from the random source in the program's evaluation order. -/
def makeRecipe (i : Nat) (g0 : RandGen) : Recipe × RandGen :=
  let (cuisine, g1) := pyChoice cuisineChoices g0
  let (difficulty, g2) := pyChoice difficultyChoices g1
  let (meal_type, g3) := pyChoice mealTypeChoices g2
  let (prep_time, g4) := pyRandint 5 30 g3
  let (cook_time, g5) := pyRandint 10 90 g4
  let (servings, g6) := pyRandint 2 6 g5
  let (calories, g7) := pyRandint 200 800 g6
  let (protein, g8) := pyRandint 10 50 g7
  let (carbs, g9) := pyRandint 20 100 g8
  let (fats, g10) := pyRandint 5 40 g9
  let (fiber, g11) := pyRandint 2 15 g10
  let (sodium, g12) := pyRandint 200 1500 g11
  let (sugar, g13) := pyRandint 2 25 g12
  let (k, g14) := pyRandint 0 2 g13
  let (tags, g15) := pySample tagChoices k g14
  (⟨recipeId (i + 1),
    strCodes "Sample " ++ pyCapitalize cuisine ++ [32] ++ meal_type
      ++ strCodes " Recipe " ++ natCodes (i + 1),
    strCodes "/images/placeholder-recipe.png",
    strCodes "A delicious " ++ cuisine ++ [32] ++ meal_type.map pyLower
      ++ strCodes " dish",
    prep_time, cook_time, prep_time + cook_time, servings,
    difficulty, meal_type, cuisine,
    [⟨strCodes "ingredient1", 2, strCodes "cups", []⟩,
     ⟨strCodes "ingredient2", 1, strCodes "tbsp", []⟩,
     ⟨strCodes "ingredient3", 500, strCodes "g", []⟩],
    [⟨1, strCodes "Prepare all ingredients", none⟩,
     ⟨2, strCodes "Cook for 20 minutes", some 1200⟩,
     ⟨3, strCodes "Serve hot", none⟩],
    ⟨calories, protein, carbs, fats, fiber, sodium, sugar⟩,
    tags, none⟩, g15)

/-- The `for i in range(count)` loop of `create_sample_recipes`,
started at index `i` with `rem` iterations left. -/
def sampleRecipesGo (i : Nat) : Nat → RandGen → List Recipe × RandGen
  | 0, g => ([], g)
  | rem + 1, g =>
    let (r, g1) := makeRecipe i g
    let (rs, g2) := sampleRecipesGo (i + 1) rem g1
    (r :: rs, g2)

/-- `create_sample_recipes(count)` from the script, with the random
source made explicit. -/
def create_sample_recipes (count : Nat) (g : RandGen) :
    List Recipe × RandGen :=
  sampleRecipesGo 0 count g

/-- `cuisines[cuisine] = cuisines.get(cuisine, 0) + 1` on a Python dict
modelled as an insertion-ordered association list. -/
def bumpCuisine : List (List Nat × Nat) → List Nat → List (List Nat × Nat)
  | [], c => [(c, 1)]
  | (k, v) :: t, c =>
    if k = c then (k, v + 1) :: t else (k, v) :: bumpCuisine t c

/-- The cuisine frequency dict built by the statistics loop of `main`. -/
def countCuisines (recipes : List Recipe) : List (List Nat × Nat) :=
  recipes.foldl (fun m r => bumpCuisine m r.cuisine) []

/-- Lexicographic order on code-point lists: Python string `<=`. -/
def lexLe : List Nat → List Nat → Bool
  | [], _ => true
  | _ :: _, [] => false
  | a :: as, b :: bs => a < b || (a == b && lexLe as bs)

/-- Insert a (cuisine, count) pair into a list sorted by `lexLe` on keys. -/
def insertPair (x : List Nat × Nat) :
    List (List Nat × Nat) → List (List Nat × Nat)
  | [] => [x]
  | y :: t => if lexLe x.1 y.1 then x :: y :: t else y :: insertPair x t

/-- Sort (cuisine, count) pairs by cuisine.  Models Python's
`sorted(cuisines.items())`: the dict keys are distinct, so sorting the
pairs lexicographically is sorting by key. -/
def sortPairs (l : List (List Nat × Nat)) : List (List Nat × Nat) :=
  l.foldr insertPair []

/-- The cuisine-distribution report printed by `main`:
`sorted(cuisines.items())`. -/
def cuisineReport (recipes : List Recipe) : List (List Nat × Nat) :=
  sortPairs (countCuisines recipes)

/-- Modelled from the spec wording of C1: the first contiguous run of
decimal digits anywhere in the string (`none` when there is no digit).
Used to compare the code's `re.findall(...)[0]` against the spec. -/
def specFirstDigitRun (s : List Nat) : Option (List Nat) :=
  match s.dropWhile (fun c => !isDigitCode c) with
  | [] => none
  | c :: t => some (c :: t.takeWhile isDigitCode)

/-- Modelled from the spec wording of C5: the fixed meal-type table in
priority order. -/
def specMealTable : List (List Nat × List (List Nat)) :=
  [(strCodes "Breakfast",
    [strCodes "breakfast", strCodes "pancake", strCodes "waffle",
     strCodes "cereal", strCodes "oatmeal"]),
   (strCodes "Dinner",
    [strCodes "dinner", strCodes "main", strCodes "entree"]),
   (strCodes "Snack",
    [strCodes "snack", strCodes "appetizer", strCodes "dessert"])]

/-- Modelled from the spec wording of C5: first matching category wins,
default when none match. -/
def specFirstCat (text : List Nat) (dflt : List Nat) :
    List (List Nat × List (List Nat)) → List Nat
  | [] => dflt
  | (cat, words) :: rest =>
    if words.any (fun w => pyIn w text) then cat
    else specFirstCat text dflt rest

/-- The character set `[a-z0-9 ]` claimed by C2 for cleaned names. -/
def isClaimChar (c : Nat) : Bool :=
  (97 ≤ c && c ≤ 122) || (48 ≤ c && c ≤ 57) || c = 32

/-- No two consecutive space characters, as claimed by C2. -/
def noDoubleSpace : List Nat → Bool
  | c :: d :: rest => !(c = 32 && d = 32) && noDoubleSpace (d :: rest)
  | _ => true

/-- The full invariant claimed by C2 for `clean_ingredient_name` output:
only characters in `[a-z0-9 ]` and no two consecutive spaces. -/
def claimedCleanInvariant (l : List Nat) : Bool :=
  l.all isClaimChar && noDoubleSpace l

/-- The character set actually guaranteed for `clean_ingredient_name`
output: lowercase ASCII letters, digits, and whitespace. -/
def isCleanOutChar (c : Nat) : Bool :=
  (97 ≤ c && c ≤ 122) || (48 ≤ c && c ≤ 57) || isPySpace c

/-- Fuelled worker for `noArticles` (same recursion as
`subArticlesFuel`). -/
def noArticlesFuel : Nat → List Nat → Bool
  | _, [] => true
  | 0, _ => true
  | fuel + 1, c :: rest =>
    if isWordChar c then
      !isArticle (c :: rest.takeWhile isWordChar)
        && noArticlesFuel fuel (rest.dropWhile isWordChar)
    else
      noArticlesFuel fuel rest

/-- No maximal word run of the list is an article word, i.e. the article
substitution leaves the list unchanged. -/
def noArticles (l : List Nat) : Bool := noArticlesFuel l.length l

/-- Claim C4: for every integer pair, `determine_difficulty` returns Easy
when `stepCount ≤ 5` and `totalTime ≤ 30`; otherwise Medium when
`stepCount ≤ 10` and `totalTime ≤ 60`; otherwise Hard (first match wins);
in particular `determine_difficulty 12 90 = Hard`. -/
theorem determine_difficulty_spec :
    (∀ s t : Int,
      (s ≤ 5 → t ≤ 30 → determine_difficulty s t = strCodes "Easy")
      ∧ (¬(s ≤ 5 ∧ t ≤ 30) → s ≤ 10 → t ≤ 60 →
          determine_difficulty s t = strCodes "Medium")
      ∧ (¬(s ≤ 10 ∧ t ≤ 60) →
          determine_difficulty s t = strCodes "Hard"))
    ∧ determine_difficulty 12 90 = strCodes "Hard" := by
  refine ⟨fun s t => ⟨?_, ?_, ?_⟩, by decide⟩
  · intro hs ht
    simp [determine_difficulty, hs, ht]
  · intro hne hs ht
    rw [determine_difficulty, if_neg hne, if_pos ⟨hs, ht⟩]
  · intro hne
    have hne' : ¬(s ≤ 5 ∧ t ≤ 30) := fun ⟨a, b⟩ => hne ⟨by omega, by omega⟩
    rw [determine_difficulty, if_neg hne', if_neg hne]

/-- Witness for C4: each guarded case of `determine_difficulty_spec`
instantiated at concrete inputs. -/
theorem determine_difficulty_spec_witness :
    determine_difficulty 3 10 = strCodes "Easy"
    ∧ determine_difficulty 8 40 = strCodes "Medium"
    ∧ determine_difficulty 12 90 = strCodes "Hard" :=
  ⟨(determine_difficulty_spec.1 3 10).1 (by decide) (by decide),
   (determine_difficulty_spec.1 8 40).2.1 (by decide) (by decide) (by decide),
   (determine_difficulty_spec.1 12 90).2.2 (by decide)⟩

/-- Claim C5: `determine_meal_type` lowercases and concatenates keywords
and name into one search text and checks the fixed keyword sets in
priority order Breakfast, Dinner, Snack; the first matching category wins
and the default is Lunch; in particular
`determine_meal_type(["breakfast special"], "Morning Oats") = Breakfast`
and `determine_meal_type([], "Grilled Chicken") = Lunch`. -/
theorem determine_meal_type_spec :
    (∀ (keywords : List (List Nat)) (name : List Nat),
      determine_meal_type keywords name
        = specFirstCat (searchText keywords name) (strCodes "Lunch")
            specMealTable)
    ∧ determine_meal_type [strCodes "breakfast special"]
        (strCodes "Morning Oats") = strCodes "Breakfast"
    ∧ determine_meal_type [] (strCodes "Grilled Chicken")
        = strCodes "Lunch" :=
  ⟨fun _ _ => rfl, by decide, by decide⟩

/-- The `for` loop of `extract_cuisine` returns the default when no table
entry has a matching keyword. -/
theorem lookupCuisine_no_match (text : List Nat) :
    ∀ tbl : List (List Nat × List (List Nat)),
    (∀ e ∈ tbl, e.2.any (fun w => pyIn w text) = false) →
    lookupCuisine text tbl = strCodes "international" := by
  intro tbl
  induction tbl with
  | nil => intro _; rfl
  | cons e rest ih =>
    intro h
    obtain ⟨c, k⟩ := e
    rw [lookupCuisine, if_neg]
    · exact ih fun e he => h e (List.mem_cons_of_mem _ he)
    · simp [h ⟨c, k⟩ (List.mem_cons_self _ _)]

/-- The `for` loop of `extract_cuisine` returns the first table entry
with a matching keyword. -/
theorem lookupCuisine_first (text : List Nat) :
    ∀ (tbl : List (List Nat × List (List Nat))) (i : Nat)
      (h : i < tbl.length),
    (tbl.get ⟨i, h⟩).2.any (fun w => pyIn w text) = true →
    (∀ (j : Nat) (hj : j < i),
      (tbl.get ⟨j, Nat.lt_trans hj h⟩).2.any (fun w => pyIn w text)
        = false) →
    lookupCuisine text tbl = (tbl.get ⟨i, h⟩).1 := by
  intro tbl
  induction tbl with
  | nil => intro i h; simp at h
  | cons e rest ih =>
    intro i h hmatch hprev
    obtain ⟨c, k⟩ := e
    match i with
    | 0 =>
      rw [lookupCuisine, if_pos]
      · rfl
      · exact hmatch
    | i + 1 =>
      rw [lookupCuisine, if_neg]
      · exact ih i (by simpa using h) hmatch
          (fun j hj => hprev (j + 1) (by omega))
      · simpa using hprev 0 (by omega)

/-- Claim C6: `extract_cuisine` tests the cuisine table in the fixed
iteration order indian, chinese, italian, mexican, thai over the
lowercased concatenation of keywords and name; the first cuisine any of
whose keywords matches is returned, and `"international"` is returned
when none match; in particular
`extract_cuisine([], "Chicken Tikka Masala") = "indian"`. -/
theorem extract_cuisine_spec :
    (∀ (keywords : List (List Nat)) (name : List Nat) (i : Nat)
       (h : i < cuisinesTable.length),
      (cuisinesTable.get ⟨i, h⟩).2.any
          (fun w => pyIn w (searchText keywords name)) = true →
      (∀ (j : Nat) (hj : j < i),
        (cuisinesTable.get ⟨j, Nat.lt_trans hj h⟩).2.any
            (fun w => pyIn w (searchText keywords name)) = false) →
      extract_cuisine keywords name = (cuisinesTable.get ⟨i, h⟩).1)
    ∧ (∀ (keywords : List (List Nat)) (name : List Nat),
        (∀ e ∈ cuisinesTable,
          e.2.any (fun w => pyIn w (searchText keywords name)) = false) →
        extract_cuisine keywords name = strCodes "international")
    ∧ extract_cuisine [] (strCodes "Chicken Tikka Masala")
        = strCodes "indian" := by
  refine ⟨fun keywords name i h hm hp => ?_, fun keywords name h => ?_,
    by decide⟩
  · exact lookupCuisine_first _ cuisinesTable i h hm hp
  · exact lookupCuisine_no_match _ cuisinesTable h

/-- Witness for C6: the first-match and no-match cases of
`extract_cuisine_spec` instantiated at concrete inputs. -/
theorem extract_cuisine_spec_witness :
    extract_cuisine [] (strCodes "Chicken Tikka Masala")
        = strCodes "indian"
    ∧ extract_cuisine [] (strCodes "Plain Toast")
        = strCodes "international" :=
  ⟨by
    have h := extract_cuisine_spec.1 [] (strCodes "Chicken Tikka Masala")
      0 (by decide) (by decide) (fun j hj => by omega)
    simpa using h,
   extract_cuisine_spec.2.1 [] (strCodes "Plain Toast") (by decide)⟩

/-- The fuelled digit-run scanner computes `findallDigitRuns` whenever the
fuel covers the length of the list. -/
theorem findallDigitRunsFuel_eq :
    ∀ (f : Nat) (l : List Nat), l.length ≤ f →
    findallDigitRunsFuel f l = findallDigitRuns l := by
  intro f
  induction f using Nat.strong_induction_on with
  | _ f ih =>
    intro l hl
    cases l with
    | nil => cases f <;> rfl
    | cons c rest =>
      cases f with
      | zero => simp at hl
      | succ f' =>
        have hrest : rest.length ≤ f' := by simpa using hl
        have hdrop : (rest.dropWhile isDigitCode).length ≤ rest.length :=
          (List.dropWhile_sublist _).length_le
        show findallDigitRunsFuel (f' + 1) (c :: rest)
          = findallDigitRunsFuel (rest.length + 1) (c :: rest)
        by_cases hd : isDigitCode c
        · simp only [findallDigitRunsFuel, hd, if_true]
          rw [ih f' (by omega) _ (le_trans hdrop hrest),
            ih rest.length (by omega) _ hdrop]
        · simp only [findallDigitRunsFuel, hd, Bool.false_eq_true, if_false]
          rw [ih f' (by omega) _ hrest, ih rest.length (by omega) _ le_rfl]

/-- Unfolding `findallDigitRuns` at a digit character. -/
theorem findallDigitRuns_cons_digit {c : Nat} (rest : List Nat)
    (h : isDigitCode c = true) :
    findallDigitRuns (c :: rest)
      = (c :: rest.takeWhile isDigitCode)
          :: findallDigitRuns (rest.dropWhile isDigitCode) := by
  show findallDigitRunsFuel (rest.length + 1) (c :: rest) = _
  simp only [findallDigitRunsFuel, h, if_true]
  rw [findallDigitRunsFuel_eq rest.length _
    (List.dropWhile_sublist _).length_le]

/-- Unfolding `findallDigitRuns` at a non-digit character. -/
theorem findallDigitRuns_cons_nondigit {c : Nat} (rest : List Nat)
    (h : isDigitCode c = false) :
    findallDigitRuns (c :: rest) = findallDigitRuns rest := by
  show findallDigitRunsFuel (rest.length + 1) (c :: rest) = _
  simp only [findallDigitRunsFuel, h, if_false]
  rfl

/-- The head of the `re.findall(r'(\d+)', s)` list is exactly the
spec-side "first contiguous run of decimal digits". -/
theorem findallDigitRuns_head :
    ∀ s : List Nat, (findallDigitRuns s).head? = specFirstDigitRun s := by
  intro s
  induction s with
  | nil => rfl
  | cons c rest ih =>
    by_cases hd : isDigitCode c
    · rw [findallDigitRuns_cons_digit rest hd]
      simp [specFirstDigitRun, List.dropWhile_cons, hd]
    · rw [findallDigitRuns_cons_nondigit rest (by simpa using hd)]
      rw [ih]
      simp [specFirstDigitRun, List.dropWhile_cons, hd]

/-- A string without decimal digits has no digit run. -/
theorem findallDigitRuns_eq_nil {s : List Nat}
    (h : ∀ c ∈ s, isDigitCode c = false) : findallDigitRuns s = [] := by
  have hhead := findallDigitRuns_head s
  have hdrop : s.dropWhile (fun c => !isDigitCode c) = [] := by
    rw [List.dropWhile_eq_nil_iff]
    intro a ha
    simp [h a ha]
  rw [specFirstDigitRun, hdrop] at hhead
  cases hfind : findallDigitRuns s with
  | nil => rfl
  | cons a t => rw [hfind] at hhead; simp at hhead

/-- Claim C1: `parse_time` follows the stated policy for every input:
absent or empty input returns 0; a string without a decimal digit returns
0; otherwise the first contiguous run of decimal digits is the minutes
value, multiplied by 60 exactly when the string case-insensitively
contains "hour" or "hr"; in particular `parse_time "" = 0`,
`parse_time "45 minutes" = 45` and `parse_time "2 hours" = 120`. -/
theorem parse_time_spec :
    parse_time none = 0
    ∧ parse_time (some []) = 0
    ∧ (∀ s : List Nat, (∀ c ∈ s, isDigitCode c = false) →
        parse_time (some s) = 0)
    ∧ (∀ s run : List Nat, specFirstDigitRun s = some run →
        parse_time (some s)
          = if pyIn (strCodes "hour") (s.map pyLower)
                || pyIn (strCodes "hr") (s.map pyLower) then
              intOfDigits run * 60
            else intOfDigits run)
    ∧ parse_time (some (strCodes "45 minutes")) = 45
    ∧ parse_time (some (strCodes "2 hours")) = 120 := by
  refine ⟨rfl, rfl, ?_, ?_, by decide, by decide⟩
  · intro s h
    cases s with
    | nil => rfl
    | cons c rest =>
      rw [parse_time, if_neg (by simp), findallDigitRuns_eq_nil h]
  · intro s run hrun
    cases s with
    | nil => simp [specFirstDigitRun] at hrun
    | cons c rest =>
      have hhead := findallDigitRuns_head (c :: rest)
      rw [hrun] at hhead
      cases hfind : findallDigitRuns (c :: rest) with
      | nil => rw [hfind] at hhead; simp at hhead
      | cons m t =>
        rw [hfind] at hhead
        simp only [List.head?_cons, Option.some.injEq] at hhead
        rw [parse_time, if_neg (by simp), hfind, hhead]

/-- Witness for C1: the no-digit and digit-run cases of `parse_time_spec`
instantiated at concrete inputs. -/
theorem parse_time_spec_witness :
    parse_time (some (strCodes "soon")) = 0
    ∧ parse_time (some (strCodes "2 hours")) = 120 :=
  ⟨parse_time_spec.2.2.1 (strCodes "soon") (by decide),
   (parse_time_spec.2.2.2.1 (strCodes "2 hours") (strCodes "2")
      (by decide)).trans (by decide)⟩

/-- Membership in a conditional singleton list. -/
theorem mem_ite_singleton {b : Bool} {x y : List Nat} :
    (y ∈ if b = true then [x] else ([] : List (List Nat)))
      ↔ b = true ∧ y = x := by
  cases b <;> simp

/-- The script's low-carb trigger implies its keto trigger (they share the
`low-carb`/`low carb` substring tests). -/
theorem lowCarb_imp_keto (keywords : List (List Nat))
    (h : lowCarbCond keywords = true) : ketoCond keywords = true := by
  simp only [lowCarbCond, Bool.or_eq_true] at h
  simp only [ketoCond, Bool.or_eq_true]
  tauto

/-- Claim C3: `extract_dietary_tags` appends tags in the fixed rule order:
vegetarian exactly when no meat keyword occurs in the ingredient text;
vegan exactly when additionally no dairy/egg keyword occurs; gluten-free
exactly on the gluten-free trigger; keto exactly on the keto trigger; and
the low-carb trigger alone adds BOTH keto and low-carb; in particular
`extract_dietary_tags(["lentils","rice"], []) = ["vegetarian","vegan"]`. -/
theorem extract_dietary_tags_spec :
    (∀ ingredients keywords : List (List Nat),
      (strCodes "vegetarian" ∈ extract_dietary_tags ingredients keywords
          ↔ has_meat ingredients = false)
      ∧ (strCodes "vegan" ∈ extract_dietary_tags ingredients keywords
          ↔ has_meat ingredients = false ∧ has_dairy ingredients = false)
      ∧ (strCodes "gluten-free" ∈ extract_dietary_tags ingredients keywords
          ↔ glutenFreeCond keywords = true)
      ∧ (strCodes "keto" ∈ extract_dietary_tags ingredients keywords
          ↔ ketoCond keywords = true)
      ∧ (strCodes "low-carb" ∈ extract_dietary_tags ingredients keywords
          ↔ lowCarbCond keywords = true)
      ∧ (lowCarbCond keywords = true →
          strCodes "keto" ∈ extract_dietary_tags ingredients keywords
          ∧ strCodes "low-carb"
              ∈ extract_dietary_tags ingredients keywords))
    ∧ extract_dietary_tags [strCodes "lentils", strCodes "rice"] []
        = [strCodes "vegetarian", strCodes "vegan"] := by
  refine ⟨fun ingredients keywords => ?_, by decide⟩
  cases hm : has_meat ingredients <;> cases hdy : has_dairy ingredients <;>
    cases hgf : glutenFreeCond keywords <;>
    cases hk : ketoCond keywords <;> cases hlc : lowCarbCond keywords <;>
    first
    | exact Bool.noConfusion
        ((lowCarb_imp_keto keywords hlc).symm.trans hk)
    | (simp only [extract_dietary_tags, hm, hdy, hgf, hk, hlc]; decide)

/-- Witness for C3: the shared low-carb trigger of
`extract_dietary_tags_spec` instantiated at a concrete input adds both
keto and low-carb. -/
theorem extract_dietary_tags_spec_witness :
    strCodes "keto"
        ∈ extract_dietary_tags [strCodes "lentils"] [strCodes "low carb"]
    ∧ strCodes "low-carb"
        ∈ extract_dietary_tags [strCodes "lentils"] [strCodes "low carb"] :=
  (extract_dietary_tags_spec.1 [strCodes "lentils"]
    [strCodes "low carb"]).2.2.2.2.2 (by decide)

/-- Claim C9: the tag list returned by `extract_dietary_tags` is a
duplicate-free subsequence of the fixed order
[vegetarian, vegan, gluten-free, keto, low-carb], and whenever it contains
vegan it also contains vegetarian. -/
theorem extract_dietary_tags_shape :
    ∀ ingredients keywords : List (List Nat),
      List.Sublist (extract_dietary_tags ingredients keywords) tagChoices
      ∧ (extract_dietary_tags ingredients keywords).Nodup
      ∧ (strCodes "vegan" ∈ extract_dietary_tags ingredients keywords →
          strCodes "vegetarian"
            ∈ extract_dietary_tags ingredients keywords) := by
  intro ingredients keywords
  have hone : ∀ (b : Bool) (x : List Nat),
      List.Sublist (if b = true then [x] else []) [x] := by
    intro b x
    cases b
    · exact List.nil_sublist _
    · exact List.Sublist.refl _
  have hsub : List.Sublist (extract_dietary_tags ingredients keywords)
      tagChoices :=
    ((((hone _ _).append (hone _ _)).append (hone _ _)).append
      (hone _ _)).append (hone _ _)
  refine ⟨hsub, (by decide : tagChoices.Nodup).sublist hsub, ?_⟩
  cases hm : has_meat ingredients with
  | false => intro _; simp [extract_dietary_tags, hm]
  | true =>
    intro hv
    have d1 : strCodes "vegan" ≠ strCodes "gluten-free" := by decide
    have d2 : strCodes "vegan" ≠ strCodes "keto" := by decide
    have d3 : strCodes "vegan" ≠ strCodes "low-carb" := by decide
    simp [extract_dietary_tags, hm, mem_ite_singleton, d1, d2, d3] at hv

/-- Witness for C9: the vegan-implies-vegetarian part of
`extract_dietary_tags_shape` instantiated at a concrete input. -/
theorem extract_dietary_tags_shape_witness :
    strCodes "vegetarian" ∈ extract_dietary_tags [strCodes "lentils"] [] :=
  (extract_dietary_tags_shape [strCodes "lentils"] []).2.2 (by decide)

/-- One `cuisines[c] = cuisines.get(c, 0) + 1` step increases the total
count by one. -/
theorem sum_bumpCuisine :
    ∀ (m : List (List Nat × Nat)) (c : List Nat),
    ((bumpCuisine m c).map Prod.snd).sum = (m.map Prod.snd).sum + 1 := by
  intro m c
  induction m with
  | nil => simp [bumpCuisine]
  | cons kv t ih =>
    obtain ⟨k, v⟩ := kv
    by_cases hk : k = c
    · simp [bumpCuisine, hk]
      omega
    · simp [bumpCuisine, hk, ih]
      omega

/-- The statistics loop of `main` counts every recipe exactly once. -/
theorem sum_countCuisines_aux :
    ∀ (rs : List Recipe) (m : List (List Nat × Nat)),
    (((rs.foldl (fun m r => bumpCuisine m r.cuisine) m).map Prod.snd).sum)
      = (m.map Prod.snd).sum + rs.length := by
  intro rs
  induction rs with
  | nil => intro m; simp
  | cons r t ih =>
    intro m
    have := ih (bumpCuisine m r.cuisine)
    simp only [List.foldl_cons, this, sum_bumpCuisine, List.length_cons]
    omega

/-- Inserting into the sorted report is a permutation of consing. -/
theorem insertPair_perm (x : List Nat × Nat) :
    ∀ l : List (List Nat × Nat), List.Perm (insertPair x l) (x :: l) := by
  intro l
  induction l with
  | nil => exact List.Perm.refl _
  | cons y t ih =>
    rw [insertPair]
    by_cases h : lexLe x.1 y.1
    · rw [if_pos h]
    · rw [if_neg h]
      exact (ih.cons y).trans (List.Perm.swap x y t)

/-- The report sort is a permutation. -/
theorem sortPairs_perm :
    ∀ l : List (List Nat × Nat), List.Perm (sortPairs l) l := by
  intro l
  induction l with
  | nil => exact List.Perm.refl _
  | cons x t ih =>
    exact (insertPair_perm x (sortPairs t)).trans (ih.cons x)

/-- `lexLe` is total. -/
theorem lexLe_total : ∀ a b : List Nat, lexLe a b = true ∨ lexLe b a = true := by
  intro a
  induction a with
  | nil => intro b; left; rfl
  | cons x xs ih =>
    intro b
    cases b with
    | nil => right; rfl
    | cons y ys =>
      rcases Nat.lt_trichotomy x y with h | h | h
      · left; simp [lexLe, h]
      · rcases ih ys with h2 | h2
        · left; simp [lexLe, h, h2]
        · right; simp [lexLe, h.symm, h2]
      · right; simp [lexLe, h]

/-- `lexLe` is transitive. -/
theorem lexLe_trans :
    ∀ a b c : List Nat, lexLe a b = true → lexLe b c = true →
    lexLe a c = true := by
  intro a
  induction a with
  | nil => intro b c _ _; rfl
  | cons x xs ih =>
    intro b c hab hbc
    cases b with
    | nil => simp [lexLe] at hab
    | cons y ys =>
      cases c with
      | nil => simp [lexLe] at hbc
      | cons z zs =>
        simp only [lexLe, Bool.or_eq_true, Bool.and_eq_true,
          decide_eq_true_eq, beq_iff_eq] at hab hbc ⊢
        rcases hab with h1 | ⟨h1, h1'⟩ <;> rcases hbc with h2 | ⟨h2, h2'⟩
        · exact Or.inl (by omega)
        · exact Or.inl (by omega)
        · exact Or.inl (by omega)
        · exact Or.inr ⟨by omega, ih ys zs h1' h2'⟩

/-- Members of an insertion. -/
theorem mem_insertPair {z x : List Nat × Nat} :
    ∀ {l : List (List Nat × Nat)}, z ∈ insertPair x l → z = x ∨ z ∈ l := by
  intro l
  induction l with
  | nil => intro h; simpa [insertPair] using h
  | cons y t ih =>
    intro h
    rw [insertPair] at h
    by_cases hle : lexLe x.1 y.1
    · rw [if_pos hle] at h
      rcases List.mem_cons.mp h with h1 | h1
      · exact Or.inl h1
      · exact Or.inr h1
    · rw [if_neg hle] at h
      rcases List.mem_cons.mp h with h1 | h1
      · exact Or.inr (h1 ▸ List.mem_cons_self _ _)
      · rcases ih h1 with h2 | h2
        · exact Or.inl h2
        · exact Or.inr (List.mem_cons_of_mem _ h2)

/-- Insertion preserves sortedness of the report. -/
theorem pairwise_insertPair (x : List Nat × Nat) :
    ∀ l : List (List Nat × Nat),
    List.Pairwise (fun a b => lexLe a.1 b.1 = true) l →
    List.Pairwise (fun a b => lexLe a.1 b.1 = true) (insertPair x l) := by
  intro l
  induction l with
  | nil => intro _; simp [insertPair]
  | cons y t ih =>
    intro hp
    rcases List.pairwise_cons.mp hp with ⟨hy, ht⟩
    rw [insertPair]
    by_cases hle : lexLe x.1 y.1
    · rw [if_pos hle]
      refine List.pairwise_cons.mpr ⟨?_, hp⟩
      intro z hz
      rcases List.mem_cons.mp hz with h1 | h1
      · exact h1 ▸ hle
      · exact lexLe_trans _ _ _ hle (hy z h1)
    · rw [if_neg hle]
      refine List.pairwise_cons.mpr ⟨?_, ih ht⟩
      intro z hz
      rcases mem_insertPair hz with h1 | h1
      · subst h1
        rcases lexLe_total z.1 y.1 with h | h
        · exact absurd h hle
        · exact h
      · exact hy z h1

/-- The report sort sorts. -/
theorem pairwise_sortPairs :
    ∀ l : List (List Nat × Nat),
    List.Pairwise (fun a b => lexLe a.1 b.1 = true) (sortPairs l) := by
  intro l
  induction l with
  | nil => simp [sortPairs]
  | cons x t ih => exact pairwise_insertPair x (sortPairs t) ih

/-- Claim C8: for every recipe collection, the cuisine-distribution report
partitions the collection: the per-cuisine counts sum to the number of
recipes, and the report lists cuisines in alphabetical
(lexicographic code-point) order. -/
theorem cuisineReport_spec :
    ∀ recipes : List Recipe,
      ((cuisineReport recipes).map Prod.snd).sum = recipes.length
      ∧ List.Pairwise (fun a b => lexLe a.1 b.1 = true)
          (cuisineReport recipes) := by
  intro recipes
  constructor
  · have hperm : List.Perm ((cuisineReport recipes).map Prod.snd)
        ((countCuisines recipes).map Prod.snd) :=
      (sortPairs_perm (countCuisines recipes)).map Prod.snd
    rw [hperm.sum_eq]
    have := sum_countCuisines_aux recipes []
    simpa [countCuisines] using this
  · exact pairwise_sortPairs (countCuisines recipes)

/-- The fuelled digit expansion computes `decDigits` whenever the fuel
covers the number. -/
theorem decDigitsFuel_eq :
    ∀ (f n : Nat), n ≤ f → decDigitsFuel f n = decDigits n := by
  intro f
  induction f using Nat.strong_induction_on with
  | _ f ih =>
    intro n hn
    match f, n with
    | f, 0 => cases f <;> rfl
    | 0, n + 1 => omega
    | f + 1, n + 1 =>
      have hd : (n + 1) / 10 ≤ n := by omega
      show decDigitsFuel f ((n + 1) / 10) ++ [(n + 1) % 10]
        = decDigitsFuel n ((n + 1) / 10) ++ [(n + 1) % 10]
      rw [ih f (by omega) _ (by omega), ih n (by omega) _ hd]

/-- The recurrence of the decimal expansion. -/
theorem decDigits_succ (n : Nat) :
    decDigits (n + 1) = decDigits ((n + 1) / 10) ++ [(n + 1) % 10] := by
  show decDigitsFuel n ((n + 1) / 10) ++ [(n + 1) % 10] = _
  rw [decDigitsFuel_eq n _ (by omega)]

/-- Appending a digit multiplies the value by ten and adds the digit. -/
theorem valN_append_digit (l : List Nat) (d : Nat) :
    valN (l ++ [d]) = 10 * valN l + d := by
  simp [valN, List.foldl_append]

/-- The decimal expansion evaluates back to the number. -/
theorem valN_decDigits : ∀ n : Nat, valN (decDigits n) = n := by
  intro n
  induction n using Nat.strong_induction_on with
  | _ n ih =>
    match n with
    | 0 => rfl
    | n + 1 =>
      rw [decDigits_succ, valN_append_digit, ih ((n + 1) / 10) (by omega)]
      omega

/-- Leading zeros do not change the value. -/
theorem valN_replicate_zero_append :
    ∀ (k : Nat) (l : List Nat),
    valN (List.replicate k 0 ++ l) = valN l := by
  intro k
  induction k with
  | zero => intro l; rfl
  | succ k ih =>
    intro l
    show valN (0 :: (List.replicate k 0 ++ l)) = valN l
    rw [valN, List.foldl_cons]
    exact ih l

/-- The zero-padded digit block evaluates back to the number. -/
theorem valN_padDigits (n : Nat) : valN (padDigits n) = n := by
  rw [padDigits, valN_replicate_zero_append, valN_decDigits]

/-- Rendering digits as code points and parsing back is the identity. -/
theorem intOfDigits_map48 (ds : List Nat) :
    intOfDigits (ds.map (fun d => 48 + d)) = valN ds := by
  have h : ((fun c => c - 48) ∘ fun d : Nat => 48 + d) = id := by
    funext d
    simp
  simp [intOfDigits, List.map_map, h]

/-- Decoding the numeric part of a recipe id. -/
theorem decode_recipeId (n : Nat) :
    intOfDigits ((recipeId n).drop 7) = n := by
  have h7 : (strCodes "recipe_").length = 7 := rfl
  rw [recipeId, ← h7, List.drop_left, intOfDigits_map48, valN_padDigits]

/-- Recipe ids are injective in the sequence number. -/
theorem recipeId_inj : Function.Injective recipeId := by
  intro m n h
  rw [← decode_recipeId m, ← decode_recipeId n, h]

/-- The generated record at index `i` has id `recipe_{i+1:04d}`. -/
theorem makeRecipe_id (i : Nat) (g : RandGen) :
    (makeRecipe i g).1.id = recipeId (i + 1) := rfl

/-- The generated record satisfies `totalTime = prepTime + cookTime` by
construction. -/
theorem makeRecipe_total (i : Nat) (g : RandGen) :
    (makeRecipe i g).1.totalTime
      = (makeRecipe i g).1.prepTime + (makeRecipe i g).1.cookTime := rfl

/-- Unfolding one iteration of the generation loop. -/
theorem sampleRecipesGo_succ (i rem : Nat) (g : RandGen) :
    sampleRecipesGo i (rem + 1) g
      = ((makeRecipe i g).1
           :: (sampleRecipesGo (i + 1) rem (makeRecipe i g).2).1,
         (sampleRecipesGo (i + 1) rem (makeRecipe i g).2).2) := rfl

/-- The generation loop yields the ids `recipe_{i+1}`, ..., in order, and
every yielded record satisfies the total-time invariant. -/
theorem sampleRecipesGo_spec :
    ∀ (rem i : Nat) (g : RandGen),
      ((sampleRecipesGo i rem g).1.map Recipe.id
        = (List.range' (i + 1) rem).map recipeId)
      ∧ (∀ r ∈ (sampleRecipesGo i rem g).1,
          r.totalTime = r.prepTime + r.cookTime) := by
  intro rem
  induction rem with
  | zero =>
    intro i g
    exact ⟨rfl, fun r hr => (List.not_mem_nil r hr).elim⟩
  | succ rem ih =>
    intro i g
    rw [sampleRecipesGo_succ]
    constructor
    · rw [List.range'_succ, List.map_cons, List.map_cons, makeRecipe_id,
        (ih (i + 1) (makeRecipe i g).2).1]
    · intro r hr
      rcases List.mem_cons.mp hr with h1 | h1
      · rw [h1]
        exact makeRecipe_total i g
      · exact (ih (i + 1) (makeRecipe i g).2).2 r h1

/-- Claim C7: for every count and every choice of the random source,
`create_sample_recipes` yields exactly `count` records whose ids are the
zero-padded sequence `recipe_0001`, `recipe_0002`, ... in generation
order, the ids are pairwise distinct, and every record satisfies
`totalTime = prepTime + cookTime`. -/
theorem create_sample_recipes_spec :
    ∀ (count : Nat) (g : RandGen),
      (create_sample_recipes count g).1.length = count
      ∧ ((create_sample_recipes count g).1.map Recipe.id
          = (List.range count).map (fun i => recipeId (i + 1)))
      ∧ ((create_sample_recipes count g).1.map Recipe.id).Nodup
      ∧ (∀ r ∈ (create_sample_recipes count g).1,
          r.totalTime = r.prepTime + r.cookTime) := by
  intro count g
  have hgo := sampleRecipesGo_spec count 0 g
  have hrange : (List.range' 1 count).map recipeId
      = (List.range count).map (fun i => recipeId (i + 1)) := by
    rw [List.range'_eq_map_range, List.map_map]
    exact List.map_congr_left fun i _ => by simp [Nat.add_comm]
  have hids : (create_sample_recipes count g).1.map Recipe.id
      = (List.range count).map (fun i => recipeId (i + 1)) := by
    rw [create_sample_recipes, hgo.1, hrange]
  refine ⟨?_, hids, ?_, hgo.2⟩
  · have := congrArg List.length hids
    simpa using this
  · rw [create_sample_recipes, hgo.1]
    exact (by simp [List.nodup_range'] : (List.range' 1 count).Nodup).map
      recipeId_inj

/-- Witness for C7: the per-record total-time invariant of
`create_sample_recipes_spec` instantiated for the first record of a
concrete run. -/
theorem create_sample_recipes_spec_witness :
    (makeRecipe 0 ⟨fun n => n * 13 + 5, 0⟩).1.totalTime
      = (makeRecipe 0 ⟨fun n => n * 13 + 5, 0⟩).1.prepTime
        + (makeRecipe 0 ⟨fun n => n * 13 + 5, 0⟩).1.cookTime :=
  (create_sample_recipes_spec 2 ⟨fun n => n * 13 + 5, 0⟩).2.2.2
    (makeRecipe 0 ⟨fun n => n * 13 + 5, 0⟩).1 (List.mem_cons_self _ _)

/-- The head of a `dropWhile` result fails the test. -/
theorem dropWhile_cons_head {p : Nat → Bool} :
    ∀ {l c t}, List.dropWhile p l = c :: t → p c = false := by
  intro l
  induction l with
  | nil => intro c t h; cases h
  | cons a l' ih =>
    intro c t h
    rw [List.dropWhile_cons] at h
    by_cases hp : p a
    · rw [if_pos hp] at h
      exact ih h
    · rw [if_neg hp] at h
      cases h
      simpa using hp

/-- `dropWhile` is idempotent. -/
theorem dropWhile_dropWhile (p : Nat → Bool) (l : List Nat) :
    List.dropWhile p (List.dropWhile p l) = List.dropWhile p l := by
  cases h : List.dropWhile p l with
  | nil => rfl
  | cons c t =>
    rw [List.dropWhile_cons, dropWhile_cons_head h]
    simp

/-- `takeWhile` over an append whose left part satisfies the test. -/
theorem takeWhile_append_of_all {p : Nat → Bool} :
    ∀ (xs ys : List Nat), (∀ x ∈ xs, p x = true) →
    List.takeWhile p (xs ++ ys) = xs ++ List.takeWhile p ys := by
  intro xs
  induction xs with
  | nil => intro ys _; rfl
  | cons a t ih =>
    intro ys h
    rw [List.cons_append, List.takeWhile_cons,
      if_pos (h a (List.mem_cons_self _ _)), List.cons_append,
      ih ys fun x hx => h x (List.mem_cons_of_mem _ hx)]

/-- `dropWhile` over an append whose left part satisfies the test. -/
theorem dropWhile_append_of_all {p : Nat → Bool} :
    ∀ (xs ys : List Nat), (∀ x ∈ xs, p x = true) →
    List.dropWhile p (xs ++ ys) = List.dropWhile p ys := by
  intro xs
  induction xs with
  | nil => intro ys _; rfl
  | cons a t ih =>
    intro ys h
    rw [List.cons_append, List.dropWhile_cons,
      if_pos (h a (List.mem_cons_self _ _)),
      ih ys fun x hx => h x (List.mem_cons_of_mem _ hx)]

/-- `takeWhile` of a list all of whose members satisfy the test. -/
theorem takeWhile_eq_self_of_all {p : Nat → Bool} (l : List Nat)
    (h : ∀ x ∈ l, p x = true) : List.takeWhile p l = l := by
  have := takeWhile_append_of_all l [] h
  simpa using this

/-- `takeWhile` over an append when the scan stops inside the left part. -/
theorem takeWhile_append_of_stop {p : Nat → Bool} :
    ∀ (t v : List Nat), List.dropWhile p t ≠ [] →
    List.takeWhile p (t ++ v) = List.takeWhile p t := by
  intro t
  induction t with
  | nil => intro v h; exact absurd rfl h
  | cons c t' ih =>
    intro v h
    rw [List.dropWhile_cons] at h
    by_cases hp : p c
    · rw [if_pos hp] at h
      rw [List.cons_append, List.takeWhile_cons, if_pos hp,
        List.takeWhile_cons, if_pos hp, ih v h]
    · rw [List.cons_append, List.takeWhile_cons, if_neg hp,
        List.takeWhile_cons, if_neg hp]

/-- `dropWhile` over an append when the scan stops inside the left part. -/
theorem dropWhile_append_of_stop {p : Nat → Bool} :
    ∀ (t v : List Nat), List.dropWhile p t ≠ [] →
    List.dropWhile p (t ++ v) = List.dropWhile p t ++ v := by
  intro t
  induction t with
  | nil => intro v h; exact absurd rfl h
  | cons c t' ih =>
    intro v h
    rw [List.dropWhile_cons] at h
    by_cases hp : p c
    · rw [if_pos hp] at h
      rw [List.cons_append, List.dropWhile_cons, if_pos hp,
        List.dropWhile_cons, if_pos hp, ih v h]
    · rw [List.cons_append, List.dropWhile_cons, if_neg hp,
        List.dropWhile_cons, if_neg hp]
      rfl

/-- `pyRstrip` is idempotent. -/
theorem pyRstrip_pyRstrip (p : Nat → Bool) :
    ∀ l : List Nat, pyRstrip p (pyRstrip p l) = pyRstrip p l := by
  intro l
  induction l with
  | nil => rfl
  | cons c rest ih =>
    rw [pyRstrip]
    cases hr : pyRstrip p rest with
    | nil =>
      by_cases hp : p c
      · rw [if_pos hp]; rfl
      · rw [if_neg hp]
        rw [pyRstrip, pyRstrip, if_neg hp]
    | cons d t =>
      rw [hr] at ih
      rw [pyRstrip, ih]

/-- If `pyRstrip` erases the whole list, every character passed the
test. -/
theorem pyRstrip_eq_nil_all {p : Nat → Bool} :
    ∀ l : List Nat, pyRstrip p l = [] → ∀ x ∈ l, p x = true := by
  intro l
  induction l with
  | nil => intro _ x hx; cases hx
  | cons c rest ih =>
    intro h x hx
    rw [pyRstrip] at h
    cases hr : pyRstrip p rest with
    | nil =>
      rw [hr] at h
      by_cases hp : p c
      · rcases List.mem_cons.mp hx with h1 | h1
        · exact h1 ▸ hp
        · exact ih hr x h1
      · rw [if_neg hp] at h
        cases h
    | cons d t => rw [hr] at h; cases h

/-- `pyRstrip` splits the list into its result and an erased all-space
tail. -/
theorem pyRstrip_decomp (p : Nat → Bool) :
    ∀ l : List Nat,
    ∃ v, l = pyRstrip p l ++ v ∧ ∀ x ∈ v, p x = true := by
  intro l
  induction l with
  | nil => exact ⟨[], rfl, fun x hx => absurd hx (List.not_mem_nil x)⟩
  | cons c rest ih =>
    rcases ih with ⟨v, hv, hall⟩
    rw [pyRstrip]
    cases hr : pyRstrip p rest with
    | nil =>
      rw [hr] at hv
      by_cases hp : p c
      · refine ⟨c :: rest, by simp [hp], ?_⟩
        intro x hx
        rcases List.mem_cons.mp hx with h1 | h1
        · exact h1 ▸ hp
        · exact pyRstrip_eq_nil_all rest hr x h1
      · rw [if_neg hp]
        exact ⟨v, by simpa using hv, hall⟩
    | cons d t =>
      rw [hr] at hv
      exact ⟨v, by simpa using hv, hall⟩

/-- A list unchanged by `pyRstrip` is unchanged after dropping a prefix
via `dropWhile`. -/
theorem pyRstrip_dropWhile {p : Nat → Bool} :
    ∀ l : List Nat, pyRstrip p l = l →
    pyRstrip p (List.dropWhile p l) = List.dropWhile p l := by
  intro l
  induction l with
  | nil => intro _; rfl
  | cons c rest ih =>
    intro h
    by_cases hp : p c
    · rw [List.dropWhile_cons, if_pos hp]
      rw [pyRstrip] at h
      cases hr : pyRstrip p rest with
      | nil =>
        rw [hr, if_pos hp] at h
        cases h
      | cons d t =>
        rw [hr] at h
        have h2 : pyRstrip p rest = rest := by
          rw [hr]
          exact (List.cons.injEq .. ▸ h : _ ∧ _).2
        exact ih h2
    · rw [List.dropWhile_cons, if_neg hp]
      exact h

/-- `pyStrip` is idempotent. -/
theorem pyStrip_pyStrip (p : Nat → Bool) (l : List Nat) :
    pyStrip p (pyStrip p l) = pyStrip p l := by
  rw [pyStrip, pyStrip]
  rw [pyRstrip_dropWhile (pyRstrip p l) (pyRstrip_pyRstrip p l)]
  exact dropWhile_dropWhile p (pyRstrip p l)

/-- The fuelled article scanner computes `subArticles` whenever the fuel
covers the length of the list. -/
theorem subArticlesFuel_eq :
    ∀ (f : Nat) (l : List Nat), l.length ≤ f →
    subArticlesFuel f l = subArticles l := by
  intro f
  induction f using Nat.strong_induction_on with
  | _ f ih =>
    intro l hl
    cases l with
    | nil => cases f <;> rfl
    | cons c rest =>
      cases f with
      | zero => simp at hl
      | succ f' =>
        have hrest : rest.length ≤ f' := by simpa using hl
        have hdrop : (rest.dropWhile isWordChar).length ≤ rest.length :=
          (List.dropWhile_sublist _).length_le
        show subArticlesFuel (f' + 1) (c :: rest)
          = subArticlesFuel (rest.length + 1) (c :: rest)
        by_cases hw : isWordChar c
        · simp only [subArticlesFuel, hw, if_true]
          rw [ih f' (by omega) _ (le_trans hdrop hrest),
            ih rest.length (by omega) _ hdrop]
        · simp only [subArticlesFuel, hw, Bool.false_eq_true, if_false]
          rw [ih f' (by omega) _ hrest, ih rest.length (by omega) _ le_rfl]

/-- Unfolding `subArticles` at a word character. -/
theorem subArticles_cons_word {c : Nat} (rest : List Nat)
    (h : isWordChar c = true) :
    subArticles (c :: rest)
      = (if isArticle (c :: rest.takeWhile isWordChar) then []
         else c :: rest.takeWhile isWordChar)
          ++ subArticles (rest.dropWhile isWordChar) := by
  show subArticlesFuel (rest.length + 1) (c :: rest) = _
  simp only [subArticlesFuel, h, if_true]
  rw [subArticlesFuel_eq rest.length _ (List.dropWhile_sublist _).length_le]

/-- Unfolding `subArticles` at a non-word character. -/
theorem subArticles_cons_nonword {c : Nat} (rest : List Nat)
    (h : isWordChar c = false) :
    subArticles (c :: rest) = c :: subArticles rest := by
  show subArticlesFuel (rest.length + 1) (c :: rest) = _
  simp only [subArticlesFuel, h, Bool.false_eq_true, if_false]
  rfl

/-- The fuelled article test computes `noArticles` whenever the fuel
covers the length of the list. -/
theorem noArticlesFuel_eq :
    ∀ (f : Nat) (l : List Nat), l.length ≤ f →
    noArticlesFuel f l = noArticles l := by
  intro f
  induction f using Nat.strong_induction_on with
  | _ f ih =>
    intro l hl
    cases l with
    | nil => cases f <;> rfl
    | cons c rest =>
      cases f with
      | zero => simp at hl
      | succ f' =>
        have hrest : rest.length ≤ f' := by simpa using hl
        have hdrop : (rest.dropWhile isWordChar).length ≤ rest.length :=
          (List.dropWhile_sublist _).length_le
        show noArticlesFuel (f' + 1) (c :: rest)
          = noArticlesFuel (rest.length + 1) (c :: rest)
        by_cases hw : isWordChar c
        · simp only [noArticlesFuel, hw, if_true]
          rw [ih f' (by omega) _ (le_trans hdrop hrest),
            ih rest.length (by omega) _ hdrop]
        · simp only [noArticlesFuel, hw, Bool.false_eq_true, if_false]
          rw [ih f' (by omega) _ hrest, ih rest.length (by omega) _ le_rfl]

/-- Unfolding `noArticles` at a word character. -/
theorem noArticles_cons_word {c : Nat} (rest : List Nat)
    (h : isWordChar c = true) :
    noArticles (c :: rest)
      = (!isArticle (c :: rest.takeWhile isWordChar)
          && noArticles (rest.dropWhile isWordChar)) := by
  show noArticlesFuel (rest.length + 1) (c :: rest) = _
  simp only [noArticlesFuel, h, if_true]
  rw [noArticlesFuel_eq rest.length _ (List.dropWhile_sublist _).length_le]

/-- Unfolding `noArticles` at a non-word character. -/
theorem noArticles_cons_nonword {c : Nat} (rest : List Nat)
    (h : isWordChar c = false) :
    noArticles (c :: rest) = noArticles rest := by
  show noArticlesFuel (rest.length + 1) (c :: rest) = _
  simp only [noArticlesFuel, h, Bool.false_eq_true, if_false]
  rfl

/-- Whitespace characters are not word characters. -/
theorem not_wordChar_of_space {c : Nat} (h : isPySpace c = true) :
    isWordChar c = false := by
  have h2 : ((((c = 32 ∨ c = 9) ∨ c = 10) ∨ c = 13) ∨ c = 11) ∨ c = 12 := by
    simpa [isPySpace] using h
  rcases h2 with ((((rfl | rfl) | rfl) | rfl) | rfl) | rfl <;> rfl

/-- A list of whitespace characters starts with a non-word character. -/
theorem space_head_take_drop {v : List Nat}
    (h : ∀ x ∈ v, isPySpace x = true) :
    List.takeWhile isWordChar v = [] ∧
    List.dropWhile isWordChar v = v := by
  cases v with
  | nil => exact ⟨rfl, rfl⟩
  | cons c t =>
    have hc : isWordChar c = false :=
      not_wordChar_of_space (h c (List.mem_cons_self _ _))
    constructor
    · simp [List.takeWhile_cons, hc]
    · simp [List.dropWhile_cons, hc]

/-- After skipping the leading word run, the article substitution leaves
the head non-word (or empty): the tail cannot extend a word run. -/
theorem subArticles_dropWhile_word (l : List Nat) :
    List.takeWhile isWordChar
        (subArticles (List.dropWhile isWordChar l)) = []
    ∧ List.dropWhile isWordChar
        (subArticles (List.dropWhile isWordChar l))
      = subArticles (List.dropWhile isWordChar l) := by
  cases hd : List.dropWhile isWordChar l with
  | nil => exact ⟨rfl, rfl⟩
  | cons c t =>
    have hc : isWordChar c = false := dropWhile_cons_head hd
    rw [subArticles_cons_nonword t hc]
    constructor
    · simp [List.takeWhile_cons, hc]
    · simp [List.dropWhile_cons, hc]

/-- After one article substitution no article word run remains. -/
theorem noArticles_subArticles : ∀ l : List Nat,
    noArticles (subArticles l) = true := by
  suffices H : ∀ (n : Nat) (l : List Nat), l.length ≤ n →
      noArticles (subArticles l) = true from fun l => H l.length l le_rfl
  intro n
  induction n with
  | zero =>
    intro l hl
    cases l with
    | nil => rfl
    | cons c rest => simp at hl
  | succ n ih =>
    intro l hl
    cases l with
    | nil => rfl
    | cons c rest =>
      have hrest : rest.length ≤ n := by simpa using hl
      have hdle : (rest.dropWhile isWordChar).length ≤ n :=
        le_trans (List.dropWhile_sublist _).length_le hrest
      by_cases hw : isWordChar c
      · rw [subArticles_cons_word rest hw]
        by_cases ha : isArticle (c :: rest.takeWhile isWordChar)
        · rw [if_pos ha, List.nil_append]
          exact ih _ hdle
        · rw [if_neg ha]
          have htw : ∀ x ∈ rest.takeWhile isWordChar,
              isWordChar x = true := fun x hx => List.mem_takeWhile_imp hx
          have hJ := subArticles_dropWhile_word rest
          rw [List.cons_append, noArticles_cons_word _ hw,
            takeWhile_append_of_all _ _ htw, hJ.1, List.append_nil,
            dropWhile_append_of_all _ _ htw, hJ.2, ih _ hdle]
          simp [ha]
      · have hw2 : isWordChar c = false := by simpa using hw
        rw [subArticles_cons_nonword rest hw2,
          noArticles_cons_nonword _ hw2]
        exact ih rest hrest

/-- A list without article word runs is a fixed point of the article
substitution. -/
theorem subArticles_eq_self_of_noArticles : ∀ l : List Nat,
    noArticles l = true → subArticles l = l := by
  suffices H : ∀ (n : Nat) (l : List Nat), l.length ≤ n →
      noArticles l = true → subArticles l = l from
    fun l => H l.length l le_rfl
  intro n
  induction n with
  | zero =>
    intro l hl _
    cases l with
    | nil => rfl
    | cons c rest => simp at hl
  | succ n ih =>
    intro l hl h
    cases l with
    | nil => rfl
    | cons c rest =>
      have hrest : rest.length ≤ n := by simpa using hl
      by_cases hw : isWordChar c
      · rw [noArticles_cons_word rest hw, Bool.and_eq_true] at h
        rcases h with ⟨h1, h2⟩
        rw [subArticles_cons_word rest hw,
          if_neg (by simpa using h1),
          ih _ (le_trans (List.dropWhile_sublist _).length_le hrest) h2,
          List.cons_append, List.takeWhile_append_dropWhile]
      · have hw2 : isWordChar c = false := by simpa using hw
        rw [noArticles_cons_nonword rest hw2] at h
        rw [subArticles_cons_nonword rest hw2, ih rest hrest h]

/-- Dropping leading whitespace preserves absence of article runs. -/
theorem noArticles_dropWhile_space : ∀ l : List Nat,
    noArticles l = true →
    noArticles (List.dropWhile isPySpace l) = true := by
  intro l
  induction l with
  | nil => intro _; rfl
  | cons c rest ih =>
    intro h
    by_cases hs : isPySpace c
    · rw [noArticles_cons_nonword rest (not_wordChar_of_space hs)] at h
      rw [List.dropWhile_cons, if_pos hs]
      exact ih h
    · rw [List.dropWhile_cons, if_neg hs]
      exact h

/-- Removing an all-whitespace suffix preserves absence of article
runs. -/
theorem noArticles_of_append_spaces : ∀ u v : List Nat,
    (∀ x ∈ v, isPySpace x = true) → noArticles (u ++ v) = true →
    noArticles u = true := by
  suffices H : ∀ (n : Nat) (u v : List Nat), u.length ≤ n →
      (∀ x ∈ v, isPySpace x = true) → noArticles (u ++ v) = true →
      noArticles u = true from fun u v => H u.length u v le_rfl
  intro n
  induction n with
  | zero =>
    intro u v hu _ _
    cases u with
    | nil => rfl
    | cons c rest => simp at hu
  | succ n ih =>
    intro u v hu hv h
    cases u with
    | nil => rfl
    | cons c t =>
      have ht : t.length ≤ n := by simpa using hu
      rw [List.cons_append] at h
      by_cases hw : isWordChar c
      · cases hdw : List.dropWhile isWordChar t with
        | nil =>
          have htall : ∀ x ∈ t, isWordChar x = true :=
            List.dropWhile_eq_nil_iff.mp hdw
          have hvtd := space_head_take_drop hv
          rw [noArticles_cons_word _ hw,
            takeWhile_append_of_all _ _ htall, hvtd.1, List.append_nil,
            dropWhile_append_of_all _ _ htall, hvtd.2,
            Bool.and_eq_true] at h
          rw [noArticles_cons_word _ hw,
            takeWhile_eq_self_of_all t htall, hdw]
          simp only [Bool.and_eq_true]
          exact ⟨h.1, rfl⟩
        | cons d t' =>
          have hne : List.dropWhile isWordChar t ≠ [] := by
            rw [hdw]; simp
          rw [noArticles_cons_word _ hw,
            takeWhile_append_of_stop t v hne,
            dropWhile_append_of_stop t v hne, Bool.and_eq_true] at h
          have hrec := ih (List.dropWhile isWordChar t) v
            (le_trans (List.dropWhile_sublist _).length_le ht) hv h.2
          rw [noArticles_cons_word _ hw]
          simp [h.1, hrec]
      · have hw2 : isWordChar c = false := by simpa using hw
        rw [noArticles_cons_nonword _ hw2] at h
        rw [noArticles_cons_nonword _ hw2]
        exact ih t v ht hv h

/-- Right-stripping whitespace preserves absence of article runs. -/
theorem noArticles_pyRstrip (l : List Nat) (h : noArticles l = true) :
    noArticles (pyRstrip isPySpace l) = true := by
  rcases pyRstrip_decomp isPySpace l with ⟨v, hv, hall⟩
  rw [hv] at h
  exact noArticles_of_append_spaces _ v hall h

/-- Stripping whitespace preserves absence of article runs. -/
theorem noArticles_pyStrip (l : List Nat) (h : noArticles l = true) :
    noArticles (pyStrip isPySpace l) = true :=
  noArticles_dropWhile_space _ (noArticles_pyRstrip l h)

/-- `pyRstrip` only removes characters. -/
theorem pyRstrip_sublist (p : Nat → Bool) :
    ∀ l : List Nat, List.Sublist (pyRstrip p l) l := by
  intro l
  induction l with
  | nil => exact List.Sublist.refl _
  | cons c rest ih =>
    rw [pyRstrip]
    cases hr : pyRstrip p rest with
    | nil =>
      by_cases hp : p c
      · rw [if_pos hp]
        exact List.nil_sublist _
      · rw [if_neg hp]
        exact (List.nil_sublist rest).cons₂ c
    | cons d t =>
      rw [hr] at ih
      exact ih.cons₂ c

/-- `pyStrip` only removes characters. -/
theorem pyStrip_sublist (p : Nat → Bool) (l : List Nat) :
    List.Sublist (pyStrip p l) l :=
  (List.dropWhile_sublist _).trans (pyRstrip_sublist p l)

/-- The article substitution only removes characters. -/
theorem subArticles_sublist : ∀ l : List Nat,
    List.Sublist (subArticles l) l := by
  suffices H : ∀ (n : Nat) (l : List Nat), l.length ≤ n →
      List.Sublist (subArticles l) l from fun l => H l.length l le_rfl
  intro n
  induction n with
  | zero =>
    intro l hl
    cases l with
    | nil => exact List.Sublist.refl _
    | cons c rest => simp at hl
  | succ n ih =>
    intro l hl
    cases l with
    | nil => exact List.Sublist.refl _
    | cons c rest =>
      have hrest : rest.length ≤ n := by simpa using hl
      by_cases hw : isWordChar c
      · rw [subArticles_cons_word rest hw]
        have hsplit : c :: rest
            = (c :: rest.takeWhile isWordChar)
              ++ rest.dropWhile isWordChar := by
          rw [List.cons_append, List.takeWhile_append_dropWhile]
        rw [hsplit]
        have h2 : List.Sublist (subArticles (rest.dropWhile isWordChar))
            (rest.dropWhile isWordChar) :=
          ih _ (le_trans (List.dropWhile_sublist _).length_le hrest)
        by_cases ha : isArticle (c :: rest.takeWhile isWordChar)
        · rw [if_pos ha]
          exact (List.nil_sublist _).append h2
        · rw [if_neg ha]
          exact (List.Sublist.refl _).append h2
      · have hw2 : isWordChar c = false := by simpa using hw
        rw [subArticles_cons_nonword rest hw2]
        exact (ih rest hrest).cons₂ c

/-- Every character of a cleaned name survives from the
lowercase-and-filter stage. -/
theorem clean_subset (l : List Nat) :
    ∀ x ∈ clean_ingredient_name l, x ∈ (l.map pyLower).filter keepChar :=
  fun _ hx =>
    (((pyStrip_sublist isPySpace _).trans (subArticles_sublist _)).trans
      (pyStrip_sublist isPySpace _)).subset hx

/-- `pyLower` output that passes the kept-character class falls in the
lowercase/digit/whitespace class. -/
theorem isCleanOutChar_of_keep_lower (y : Nat)
    (h : keepChar (pyLower y) = true) :
    isCleanOutChar (pyLower y) = true := by
  by_cases hy : 65 ≤ y ∧ y ≤ 90
  · simp only [pyLower, if_pos hy]
    simp only [isCleanOutChar, isPySpace, Bool.or_eq_true,
      Bool.and_eq_true, decide_eq_true_eq]
    omega
  · simp only [pyLower, if_neg hy] at h ⊢
    simp only [keepChar, isAsciiAlnum, isPySpace, Bool.or_eq_true,
      Bool.and_eq_true, decide_eq_true_eq] at h
    simp only [isCleanOutChar, isPySpace, Bool.or_eq_true,
      Bool.and_eq_true, decide_eq_true_eq]
    omega

/-- Counterexample for C2: on the input `"x  \ty"` (two spaces and a tab
between two letters) the cleaned name keeps the double space and the tab,
so the claimed invariant `[a-z0-9 ]`-only-with-single-spaces is false. -/
theorem clean_ingredient_name_counterexample :
    claimedCleanInvariant
      (clean_ingredient_name (strCodes "x  \ty")) = false := by decide

/-- Claim C2 (amended): for every input, the cleaned name contains only
lowercase letters, digits, and whitespace characters (runs of whitespace,
including double spaces and tabs, may remain); the example
`clean_ingredient_name "A Ripe TOMATO!" = "ripe tomato"` holds. -/
theorem clean_ingredient_name_chars :
    (∀ l : List Nat,
      (clean_ingredient_name l).all isCleanOutChar = true)
    ∧ clean_ingredient_name (strCodes "A Ripe TOMATO!")
        = strCodes "ripe tomato" := by
  refine ⟨fun l => ?_, by decide⟩
  rw [List.all_eq_true]
  intro x hx
  have hx2 := clean_subset l x hx
  rcases List.mem_filter.mp hx2 with ⟨hmem, hkeep⟩
  rcases List.mem_map.mp hmem with ⟨y, _, rfl⟩
  exact isCleanOutChar_of_keep_lower y hkeep

/-- `pyLower` is idempotent on characters. -/
theorem pyLower_pyLower (c : Nat) : pyLower (pyLower c) = pyLower c := by
  by_cases hc : 65 ≤ c ∧ c ≤ 90
  · have h1 : pyLower c = c + 32 := by rw [pyLower, if_pos hc]
    rw [h1, pyLower, if_neg (by omega)]
  · have h1 : pyLower c = c := by rw [pyLower, if_neg hc]
    simp only [h1]

/-- Lowercasing is the identity on a cleaned name. -/
theorem map_pyLower_clean (l : List Nat) :
    (clean_ingredient_name l).map pyLower = clean_ingredient_name l := by
  have h : ∀ x ∈ clean_ingredient_name l, pyLower x = x := by
    intro x hx
    rcases List.mem_map.mp
      (List.mem_filter.mp (clean_subset l x hx)).1 with ⟨y, _, rfl⟩
    exact pyLower_pyLower y
  rw [List.map_congr_left h, List.map_id']

/-- The character-class filter is the identity on a cleaned name. -/
theorem filter_keep_clean (l : List Nat) :
    (clean_ingredient_name l).filter keepChar = clean_ingredient_name l :=
  List.filter_eq_self.mpr fun x hx =>
    (List.mem_filter.mp (clean_subset l x hx)).2

/-- A cleaned name carries no article word run. -/
theorem noArticles_clean (l : List Nat) :
    noArticles (clean_ingredient_name l) = true :=
  noArticles_pyStrip _ (noArticles_subArticles _)

/-- A cleaned name is already stripped. -/
theorem pyStrip_clean (l : List Nat) :
    pyStrip isPySpace (clean_ingredient_name l)
      = clean_ingredient_name l :=
  pyStrip_pyStrip isPySpace _

/-- Claim C10: `clean_ingredient_name` is idempotent. -/
theorem clean_ingredient_name_idem :
    ∀ l : List Nat,
      clean_ingredient_name (clean_ingredient_name l)
        = clean_ingredient_name l := by
  intro l
  have step1 : clean_ingredient_name (clean_ingredient_name l)
      = pyStrip isPySpace
          (subArticles (pyStrip isPySpace (clean_ingredient_name l))) := by
    rw [clean_ingredient_name, map_pyLower_clean, filter_keep_clean]
  rw [step1, pyStrip_clean,
    subArticles_eq_self_of_noArticles _ (noArticles_clean l),
    pyStrip_clean]
